import Mathlib

/-!
Verification of the `frfr` transformation-sequence reduction engine.

The program canonicalizes sequences of planar image isometries drawn from the
dihedral symmetry group of the square.  We embed the data model (the
transformation enum `T`, the equivalence-class table `ALL_EQ`, the bijective
base/rich map) and the operations (`representative`, `reduce_base_form`,
`rewrite_to_base_form`, `rewrite_to_rich_form`, `reduce`, `apply`) as
executable Lean definitions, together with an image model for the PIL
`transpose` operations, and prove the specified properties.

Fallible Python operations (dictionary lookups that can raise `KeyError`,
the implicit `None` return of `representative`, the `ValueError` of
`rewrite_to_rich_form`) are modelled with `Option`: `none` is the absence of
a normal result.
-/

namespace Frfr

/-- Image transformations (the `T` enum of the source). -/
inductive T where
  | FLIP_LEFT_RIGHT
  | FLIP_TOP_BOTTOM
  | ROTATE_LEFT
  | ROTATE_180
  | ROTATE_RIGHT
deriving DecidableEq, Repr, Fintype

/-- The base transformation `f = T.FLIP_TOP_BOTTOM`. -/
def f : T := T.FLIP_TOP_BOTTOM

/-- The base transformation `r = T.ROTATE_RIGHT`. -/
def r : T := T.ROTATE_RIGHT

/-- Equivalence class of `(r,)`. -/
def R : List (List T) := [[r], [f, f, r], [r, f, f]]

/-- Equivalence class of `(f,)`. -/
def F : List (List T) := [[f], [f, f, f], [r, f, r]]

/-- Equivalence class of `(r, r)` (ROTATE_180). -/
def RR : List (List T) :=
  [[r, r], [r, r, f, f], [f, f, r, r], [f, r, r, f], [r, f, f, r]]

/-- Equivalence class of `()` (the identity; `FF = ID` in the source). -/
def FF : List (List T) :=
  [[], [f, f], [r, r, r, r], [f, f, f, f], [r, f, r, f], [f, r, f, r]]

/-- Equivalence class of `(r, f)`. -/
def RF : List (List T) :=
  [[r, f], [r, r, f, r], [f, r, r, r], [r, f, f, f], [f, f, r, f]]

/-- Equivalence class of `(f, r)`. -/
def FR : List (List T) :=
  [[f, r], [r, r, r, f], [r, f, r, r], [f, r, f, f], [f, f, f, r]]

/-- Equivalence class of `(r, r, r)` (ROTATE_LEFT). -/
def RRR : List (List T) := [[r, r, r], [f, r, f]]

/-- Equivalence class of `(f, r, r)` (FLIP_LEFT_RIGHT). -/
def FRR : List (List T) := [[f, r, r], [r, r, f]]

/-- The set of all equivalence classes (`ALL_EQ` in the source).  The source
uses a Python `set`; since the classes are pairwise disjoint, lookup results
do not depend on iteration order, so a list is a faithful model. -/
def ALL_EQ : List (List (List T)) := [R, F, RR, FF, RF, FR, RRR, FRR]

/-- `BIJECTIVE_BASE_RICH_MAP`: maps reduced sequences of base transformations
to their equivalent rich counterparts and back.  The Python dict is modelled
as an association list (its keys are pairwise distinct). -/
def BIJECTIVE_BASE_RICH_MAP : List (List T × List T) :=
  [ ([T.ROTATE_RIGHT], [T.ROTATE_RIGHT]),
    ([T.FLIP_TOP_BOTTOM], [T.FLIP_TOP_BOTTOM]),
    ([T.ROTATE_RIGHT, T.ROTATE_RIGHT], [T.ROTATE_180]),
    ([T.ROTATE_180], [T.ROTATE_RIGHT, T.ROTATE_RIGHT]),
    ([], []),
    ([T.ROTATE_RIGHT, T.FLIP_TOP_BOTTOM], [T.ROTATE_RIGHT, T.FLIP_TOP_BOTTOM]),
    ([T.FLIP_TOP_BOTTOM, T.ROTATE_RIGHT], [T.FLIP_TOP_BOTTOM, T.ROTATE_RIGHT]),
    ([T.ROTATE_RIGHT, T.ROTATE_RIGHT, T.ROTATE_RIGHT], [T.ROTATE_LEFT]),
    ([T.ROTATE_LEFT], [T.ROTATE_RIGHT, T.ROTATE_RIGHT, T.ROTATE_RIGHT]),
    ([T.FLIP_TOP_BOTTOM, T.ROTATE_RIGHT, T.ROTATE_RIGHT], [T.FLIP_LEFT_RIGHT]),
    ([T.FLIP_LEFT_RIGHT], [T.FLIP_TOP_BOTTOM, T.ROTATE_RIGHT, T.ROTATE_RIGHT]) ]

/-- Python `BIJECTIVE_BASE_RICH_MAP[k]`; `none` models a `KeyError`. -/
def mapLookup (k : List T) : Option (List T) :=
  (BIJECTIVE_BASE_RICH_MAP.find? (fun p => decide (p.1 = k))).map Prod.snd

/-- For the given transformation sequence return a representative sequence
from the corresponding equivalence class.  The Python function falls off the
end of its `for` loop when no class matches and implicitly returns `None`,
modelled here by `none`. -/
def representative (transformation_sequence : List T) : Option (List T) :=
  (ALL_EQ.find? (fun EQ => decide (transformation_sequence ∈ EQ))).map
    (fun EQ => EQ.headD [])

/-- Recursion kernel of `reduce_base_form`, with an explicit fuel parameter
so that the definition is structurally recursive (hence computable by the
kernel).  The fuel never runs out when it starts at the sequence length,
because each recursive step strictly shrinks the sequence;
`reduce_base_form_eq` below proves the fuel-free recurrence of the source. -/
def reduceBaseGo : Nat → List T → Option (List T)
  | 0, s => representative s
  | fuel + 1, s =>
    if s.length < 5 then representative s
    else
      match representative (s.take 4) with
      | none => none
      | some rep => reduceBaseGo fuel (rep ++ s.drop 4)

/-- Reduce a sequence of base transformations (`reduce_base_form`).  The
Python recursion crashes with a `TypeError` when `representative` returns
`None` in the recursive branch; `none` models that. -/
def reduce_base_form (transformation_sequence : List T) : Option (List T) :=
  reduceBaseGo transformation_sequence.length transformation_sequence

/-- Rewrite a sequence of rich transformations as an equivalent sequence of
base transformations (`rewrite_to_base_form`). -/
def rewrite_to_base_form (rich_transformation_sequence : List T) :
    Option (List T) :=
  match rich_transformation_sequence with
  | [] => some []
  | t :: rest => do
      let b ← mapLookup [t]
      let tail ← rewrite_to_base_form rest
      pure (b ++ tail)

/-- Rewrite a reduced sequence of base transformations as an equivalent
sequence of rich transformations (`rewrite_to_rich_form`); `none` models the
`ValueError` raised on a `KeyError`. -/
def rewrite_to_rich_form (reduced_base_transformation_sequence : List T) :
    Option (List T) :=
  mapLookup reduced_base_transformation_sequence

/-- Reduce any sequence of image transformations to the minimal equivalent
sequence (`reduce`). -/
def reduce (transformation_sequence : List T) : Option (List T) := do
  let base ← rewrite_to_base_form transformation_sequence
  let red ← reduce_base_form base
  rewrite_to_rich_form red

/-- A pixel image: a width, a height and a pixel value at every in-range
coordinate.  The source applies transformations to PIL images with
`image.transpose(op)`; PIL is an external library, so its `transpose` is
modelled below by its documented geometric semantics on a width × height
pixel grid (origin at the top-left, `x` growing rightwards, `y` growing
downwards). -/
structure Image where
  w : Nat
  h : Nat
  pix : Fin w → Fin h → Nat

/-- PIL `Image.transpose` for the five transpose operations used by the
source (`op.value` of the `T` enum):
`FLIP_LEFT_RIGHT`, `FLIP_TOP_BOTTOM`, `ROTATE_90` (90° counterclockwise),
`ROTATE_180`, `ROTATE_270` (90° clockwise). -/
def transpose (op : T) (img : Image) : Image :=
  match op with
  | T.FLIP_LEFT_RIGHT =>
      ⟨img.w, img.h, fun x y =>
        img.pix ⟨img.w - 1 - x.val, by have := x.isLt; omega⟩ y⟩
  | T.FLIP_TOP_BOTTOM =>
      ⟨img.w, img.h, fun x y =>
        img.pix x ⟨img.h - 1 - y.val, by have := y.isLt; omega⟩⟩
  | T.ROTATE_LEFT =>
      ⟨img.h, img.w, fun x y =>
        img.pix ⟨img.w - 1 - y.val, by have := y.isLt; omega⟩
          ⟨x.val, x.isLt⟩⟩
  | T.ROTATE_180 =>
      ⟨img.w, img.h, fun x y =>
        img.pix ⟨img.w - 1 - x.val, by have := x.isLt; omega⟩
          ⟨img.h - 1 - y.val, by have := y.isLt; omega⟩⟩
  | T.ROTATE_RIGHT =>
      ⟨img.h, img.w, fun x y =>
        img.pix ⟨y.val, y.isLt⟩
          ⟨img.h - 1 - x.val, by have := x.isLt; omega⟩⟩

/-- Apply the sequence of transformations to the image (`apply`). -/
def apply (transformation_sequence : List T) (image : Image) : Image :=
  transformation_sequence.foldl (fun img op => transpose op img) image

/-- A dihedral group element, as the pullback it performs on coordinates:
swap the two axes?, reflect the input x-axis?, reflect the input y-axis?.
Each of the eight isometries of a rectangular grid is of this shape, and
`apply` factors through this eight-element group (`apply_eq_act` below),
which lets the pixel-level claims about `reduce` be settled by finite
checks on the group. -/
abbrev GElem := Bool × Bool × Bool

/-- Reflect coordinate `u` in a line of length `d` when `b` is set. -/
def ncoord (b : Bool) (d u : Nat) : Nat :=
  if b then d - 1 - u else u

/-- The action of a dihedral group element on an image. -/
def act : GElem → Image → Image
  | (false, nx, ny), img =>
      ⟨img.w, img.h, fun x y =>
        img.pix
          ⟨ncoord nx img.w x.val, by
            have := x.isLt; unfold ncoord; split <;> omega⟩
          ⟨ncoord ny img.h y.val, by
            have := y.isLt; unfold ncoord; split <;> omega⟩⟩
  | (true, nx, ny), img =>
      ⟨img.h, img.w, fun x y =>
        img.pix
          ⟨ncoord nx img.w y.val, by
            have := y.isLt; unfold ncoord; split <;> omega⟩
          ⟨ncoord ny img.h x.val, by
            have := x.isLt; unfold ncoord; split <;> omega⟩⟩

/-- The identity element. -/
def idE : GElem := (false, false, false)

/-- Composition: `comp e1 e2` acts like `e1` followed by `e2`. -/
def comp : GElem → GElem → GElem
  | (false, nx1, ny1), (s2, nx2, ny2) => (s2, xor nx1 nx2, xor ny1 ny2)
  | (true, nx1, ny1), (s2, nx2, ny2) => (!s2, xor nx1 ny2, xor ny1 nx2)

/-- The group element denoted by a single named transformation. -/
def toE : T → GElem
  | T.FLIP_LEFT_RIGHT => (false, true, false)
  | T.FLIP_TOP_BOTTOM => (false, false, true)
  | T.ROTATE_LEFT => (true, true, false)
  | T.ROTATE_180 => (false, true, true)
  | T.ROTATE_RIGHT => (true, false, true)

/-- The group element denoted by a transformation sequence. -/
def evalSeq (s : List T) : GElem :=
  s.foldl (fun acc t => comp acc (toE t)) idE

/-- A sequence is in base form when all its elements are among the two base
transformations `f` and `r`. -/
def isBase (s : List T) : Bool :=
  s.all (fun t => t = f || t = r)

/-- All base-form sequences of a given length. -/
def baseSeqs : Nat → List (List T)
  | 0 => [[]]
  | n + 1 => (baseSeqs n).flatMap (fun q => [f :: q, r :: q])

/-- The 8 canonical forms: the designated representatives of the
equivalence classes. -/
def canonicalForms : List (List T) :=
  ALL_EQ.map (fun EQ => EQ.headD [])

/-! ## Theorems -/

theorem ncoord_ncoord (b1 b2 : Bool) (d u : Nat) (h : u < d) :
    ncoord b1 d (ncoord b2 d u) = ncoord (xor b1 b2) d u := by
  cases b1 <;> cases b2 <;> simp [ncoord] <;> omega

/-- Every class representative (head of a class in `ALL_EQ`) has length at
most 3. -/
theorem representative_length_le :
    ∀ x rep, representative x = some rep → rep.length ≤ 3 := by
  intro x rep h
  unfold representative at h
  rcases Option.map_eq_some'.mp h with ⟨EQ, hfind, hhead⟩
  have hmem : EQ ∈ ALL_EQ := List.mem_of_find?_eq_some hfind
  have hall : ∀ EQ ∈ ALL_EQ, (EQ.headD []).length ≤ 3 := by decide
  exact hhead ▸ hall EQ hmem

theorem reduceBaseGo_fuel_irrel :
    ∀ fuel fuel' s, s.length ≤ fuel → s.length ≤ fuel' →
      reduceBaseGo fuel s = reduceBaseGo fuel' s := by
  intro fuel
  induction fuel with
  | zero =>
      intro fuel' s hf hf'
      have h0 : s.length = 0 := Nat.le_zero.mp hf
      have h5 : s.length < 5 := by omega
      cases fuel' with
      | zero => rfl
      | succ k' => simp [reduceBaseGo, if_pos h5]
  | succ k ih =>
      intro fuel' s hf hf'
      by_cases h5 : s.length < 5
      · cases fuel' with
        | zero => simp [reduceBaseGo, if_pos h5]
        | succ k' => simp [reduceBaseGo, if_pos h5]
      · cases fuel' with
        | zero => omega
        | succ k' =>
          simp only [reduceBaseGo, if_neg h5]
          cases hrep : representative (s.take 4) with
          | none => rfl
          | some rep =>
            have hrl : rep.length ≤ 3 := representative_length_le _ _ hrep
            have hlen : (rep ++ s.drop 4).length ≤ k := by
              simp only [List.length_append, List.length_drop]
              omega
            have hlen' : (rep ++ s.drop 4).length ≤ k' := by
              simp only [List.length_append, List.length_drop]
              omega
            exact ih k' _ hlen hlen'

/-- The defining recurrence of the source's `reduce_base_form`: if the
sequence is shorter than 5, one table lookup; otherwise replace the first 4
elements by their representative and recurse. -/
theorem reduce_base_form_eq (s : List T) :
    reduce_base_form s =
      if s.length < 5 then representative s
      else
        match representative (s.take 4) with
        | none => none
        | some rep => reduce_base_form (rep ++ s.drop 4) := by
  unfold reduce_base_form
  by_cases h5 : s.length < 5
  · rw [if_pos h5]
    cases hm : s.length with
    | zero => rfl
    | succ m =>
      rw [hm] at h5
      simp only [reduceBaseGo, hm, if_pos h5]
  · rw [if_neg h5]
    cases hm : s.length with
    | zero => omega
    | succ m =>
      rw [hm] at h5
      simp only [reduceBaseGo, hm, if_neg h5]
      cases hrep : representative (s.take 4) with
      | none => rfl
      | some rep =>
        have hrl : rep.length ≤ 3 := representative_length_le _ _ hrep
        refine reduceBaseGo_fuel_irrel m _ _ ?_ ?_ <;>
          simp only [List.length_append, List.length_drop] <;> omega

theorem act_idE (img : Image) : act idE img = img := rfl

theorem transpose_eq_act (op : T) (img : Image) :
    transpose op img = act (toE op) img := by
  cases op <;> rfl

theorem act_act (e1 e2 : GElem) (img : Image) :
    act e2 (act e1 img) = act (comp e1 e2) img := by
  obtain ⟨s1, nx1, ny1⟩ := e1
  obtain ⟨s2, nx2, ny2⟩ := e2
  cases s1 <;> cases s2 <;>
    · simp only [act, comp]
      congr 1
      funext x y
      congr 1 <;> exact Fin.ext (ncoord_ncoord _ _ _ _ (Fin.isLt _))

theorem comp_idE_left (e : GElem) : comp idE e = e := by
  obtain ⟨s, nx, ny⟩ := e
  simp [comp, idE]

theorem comp_assoc (a b c : GElem) :
    comp (comp a b) c = comp a (comp b c) := by revert a b c; decide

theorem foldl_comp (s : List T) :
    ∀ acc : GElem,
      List.foldl (fun a t => comp a (toE t)) acc s = comp acc (evalSeq s) := by
  induction s with
  | nil =>
      intro acc
      simp only [List.foldl_nil, evalSeq]
      obtain ⟨a, b, c⟩ := acc
      cases a <;> simp [comp, idE]
  | cons t rest ih =>
      intro acc
      have h1 : evalSeq (t :: rest) = comp (toE t) (evalSeq rest) := by
        show List.foldl (fun a u => comp a (toE u)) (comp idE (toE t)) rest = _
        rw [ih, comp_idE_left]
      simp only [List.foldl_cons, ih, h1, comp_assoc]

theorem apply_act (s : List T) :
    ∀ (acc : GElem) (img : Image),
      apply s (act acc img) =
        act (List.foldl (fun a t => comp a (toE t)) acc s) img := by
  induction s with
  | nil => intro acc img; rfl
  | cons t rest ih =>
      intro acc img
      show apply rest (transpose t (act acc img)) = _
      rw [transpose_eq_act, act_act, ih]
      rfl

/-- `apply` factors through the eight-element dihedral group: the image a
sequence produces depends only on the group element the sequence denotes. -/
theorem apply_eq_act (s : List T) (img : Image) :
    apply s img = act (evalSeq s) img := by
  have := apply_act s idE img
  rwa [act_idE] at this

theorem evalSeq_append (a b : List T) :
    evalSeq (a ++ b) = comp (evalSeq a) (evalSeq b) := by
  show List.foldl _ idE (a ++ b) = _
  rw [List.foldl_append, foldl_comp]
  rfl

/-- All members of an equivalence class denote the same group element as the
class representative. -/
theorem representative_evalSeq (x rep : List T)
    (h : representative x = some rep) : evalSeq rep = evalSeq x := by
  unfold representative at h
  rcases Option.map_eq_some'.mp h with ⟨EQ, hfind, hhead⟩
  have hmem : EQ ∈ ALL_EQ := List.mem_of_find?_eq_some hfind
  have hx : x ∈ EQ := by
    have := List.find?_some hfind
    simpa using this
  have hall : ∀ EQ ∈ ALL_EQ, ∀ q ∈ EQ, evalSeq q = evalSeq (EQ.headD []) := by
    decide
  rw [← hhead, hall EQ hmem x hx]

theorem reduce_base_form_evalSeq :
    ∀ s out, reduce_base_form s = some out → evalSeq out = evalSeq s := by
  have main : ∀ n s, s.length = n →
      ∀ out, reduce_base_form s = some out → evalSeq out = evalSeq s := by
    intro n
    induction n using Nat.strong_induction_on with
    | _ n ih =>
      intro s hn out h
      rw [reduce_base_form_eq] at h
      by_cases hlen : s.length < 5
      · rw [if_pos hlen] at h
        exact representative_evalSeq _ _ h
      · rw [if_neg hlen] at h
        cases hrep : representative (s.take 4) with
        | none => rw [hrep] at h; cases h
        | some rep =>
          rw [hrep] at h
          have hlt : (rep ++ s.drop 4).length < n := by
            have h3 := representative_length_le _ _ hrep
            simp only [List.length_append, List.length_drop]
            omega
          have hstep := ih _ hlt (rep ++ s.drop 4) rfl out h
          rw [hstep, evalSeq_append, representative_evalSeq _ _ hrep,
            ← evalSeq_append, List.take_append_drop]
  intro s out h
  exact main s.length s rfl out h

/-- Every entry of the bijective map relates two sequences denoting the same
group element. -/
theorem mapLookup_evalSeq (k v : List T) (h : mapLookup k = some v) :
    evalSeq v = evalSeq k := by
  unfold mapLookup at h
  rcases Option.map_eq_some'.mp h with ⟨p, hfind, hsnd⟩
  have hmem : p ∈ BIJECTIVE_BASE_RICH_MAP := List.mem_of_find?_eq_some hfind
  have hkey : p.1 = k := by
    have := List.find?_some hfind
    simpa using this
  have hall : ∀ p ∈ BIJECTIVE_BASE_RICH_MAP, evalSeq p.2 = evalSeq p.1 := by
    decide
  rw [← hsnd, ← hkey, hall p hmem]

theorem rewrite_to_base_form_evalSeq :
    ∀ s b, rewrite_to_base_form s = some b → evalSeq b = evalSeq s := by
  intro s
  induction s with
  | nil =>
      intro b h
      simp only [rewrite_to_base_form] at h
      cases h
      rfl
  | cons t rest ih =>
      intro b h
      simp only [rewrite_to_base_form, Option.bind_eq_bind, bind,
        Option.bind_eq_some] at h
      rcases h with ⟨b1, hb1, tail, htail, hb⟩
      cases hb
      have h1 : evalSeq b1 = evalSeq [t] := mapLookup_evalSeq _ _ hb1
      have h2 : evalSeq tail = evalSeq rest := ih tail htail
      have : (t :: rest) = [t] ++ rest := rfl
      rw [this, evalSeq_append, evalSeq_append, h1, h2]

theorem mem_baseSeqs : ∀ s : List T, isBase s = true → s ∈ baseSeqs s.length := by
  intro s
  induction s with
  | nil => intro _; simp [baseSeqs]
  | cons t rest ih =>
      intro h
      simp only [isBase, List.all_cons, Bool.and_eq_true] at h
      obtain ⟨ht, hrest⟩ := h
      have hmem := ih hrest
      simp only [List.length_cons, baseSeqs, List.mem_flatMap]
      refine ⟨rest, hmem, ?_⟩
      have ht' : t = f ∨ t = r := by simpa using ht
      rcases ht' with h1 | h1 <;> subst h1 <;> simp

theorem representative_mem_canonical (x rep : List T)
    (h : representative x = some rep) : rep ∈ canonicalForms := by
  unfold representative at h
  rcases Option.map_eq_some'.mp h with ⟨EQ, hfind, hhead⟩
  have hmem : EQ ∈ ALL_EQ := List.mem_of_find?_eq_some hfind
  exact hhead ▸ List.mem_map_of_mem _ hmem

/-- On every base-form sequence of length at most 4 the table lookup
succeeds. -/
theorem representative_isSome_of_base (s : List T) (hb : isBase s = true)
    (hlen : s.length ≤ 4) : ∃ rep, representative s = some rep := by
  have hmem := mem_baseSeqs s hb
  have hall : ∀ n, n ≤ 4 → ∀ x ∈ baseSeqs n,
      (representative x).isSome = true := by
    intro n hn
    interval_cases n
    · decide
    · decide
    · decide
    · decide
    · decide
  exact Option.isSome_iff_exists.mp (hall s.length hlen s hmem)

theorem canonical_isBase : ∀ c ∈ canonicalForms, isBase c = true := by decide

theorem isBase_append (a b : List T) (ha : isBase a = true)
    (hb : isBase b = true) : isBase (a ++ b) = true := by
  simp only [isBase, List.all_append, Bool.and_eq_true]
  exact ⟨ha, hb⟩

theorem isBase_take (s : List T) (n : Nat) (h : isBase s = true) :
    isBase (s.take n) = true := by
  simp only [isBase, List.all_eq_true] at h ⊢
  exact fun t ht => h t (List.mem_of_mem_take ht)

theorem isBase_drop (s : List T) (n : Nat) (h : isBase s = true) :
    isBase (s.drop n) = true := by
  simp only [isBase, List.all_eq_true] at h ⊢
  exact fun t ht => h t (List.mem_of_mem_drop ht)

/-- `reduce_base_form` is total on base-form sequences of any length, and
its output is one of the 8 canonical forms. -/
theorem reduce_base_form_total (s : List T) (hb : isBase s = true) :
    ∃ out, reduce_base_form s = some out ∧ out ∈ canonicalForms := by
  have main : ∀ n s, s.length = n → isBase s = true →
      ∃ out, reduce_base_form s = some out ∧ out ∈ canonicalForms := by
    intro n
    induction n using Nat.strong_induction_on with
    | _ n ih =>
      intro s hn hb
      rw [reduce_base_form_eq]
      by_cases h5 : s.length < 5
      · rw [if_pos h5]
        obtain ⟨rep, hrep⟩ := representative_isSome_of_base s hb (by omega)
        exact ⟨rep, hrep, representative_mem_canonical _ _ hrep⟩
      · rw [if_neg h5]
        have htake : (s.take 4).length ≤ 4 := by
          simp [List.length_take]
        obtain ⟨rep, hrep⟩ :=
          representative_isSome_of_base _ (isBase_take s 4 hb) htake
        rw [hrep]
        have hbnext : isBase (rep ++ s.drop 4) = true :=
          isBase_append _ _
            (canonical_isBase rep (representative_mem_canonical _ _ hrep))
            (isBase_drop s 4 hb)
        have hlt : (rep ++ s.drop 4).length < n := by
          have h3 := representative_length_le _ _ hrep
          simp only [List.length_append, List.length_drop]
          omega
        exact ih _ hlt _ rfl hbnext
  exact main s.length s rfl hb

/-- `rewrite_to_base_form` is total, and its output is in base form. -/
theorem rewrite_to_base_form_total (s : List T) :
    ∃ b, rewrite_to_base_form s = some b ∧ isBase b = true := by
  induction s with
  | nil => exact ⟨[], rfl, rfl⟩
  | cons t rest ih =>
      obtain ⟨tail, htail, hbt⟩ := ih
      have h1 : ∀ u : T, (mapLookup [u]).isSome = true ∧
          isBase ((mapLookup [u]).getD []) = true := by decide
      obtain ⟨b1, hb1⟩ := Option.isSome_iff_exists.mp (h1 t).1
      refine ⟨b1 ++ tail, ?_, ?_⟩
      · simp [rewrite_to_base_form, hb1, htail]
      · have := (h1 t).2
        rw [hb1] at this
        exact isBase_append _ _ this hbt

/-- On every canonical form the rich-rewrite lookup succeeds. -/
theorem canonical_mapLookup_isSome :
    ∀ c ∈ canonicalForms, (mapLookup c).isSome = true := by decide

/-- `reduce` is total, and its output is the rich counterpart of one of the
8 canonical forms. -/
theorem reduce_total_aux (s : List T) :
    ∃ out, reduce s = some out ∧
      ∃ red ∈ canonicalForms, mapLookup red = some out := by
  obtain ⟨base, hbase, hb⟩ := rewrite_to_base_form_total s
  obtain ⟨red, hred, hcan⟩ := reduce_base_form_total base hb
  obtain ⟨out, hout⟩ :=
    Option.isSome_iff_exists.mp (canonical_mapLookup_isSome red hcan)
  refine ⟨out, ?_, red, hcan, hout⟩
  simp [reduce, rewrite_to_rich_form, hbase, hred, hout]

/-- Decompose a successful `reduce` run into its three pipeline stages. -/
theorem reduce_some_elim (s out : List T) (h : reduce s = some out) :
    ∃ base red, rewrite_to_base_form s = some base ∧
      reduce_base_form base = some red ∧ mapLookup red = some out := by
  simp only [reduce, rewrite_to_rich_form, Option.bind_eq_bind, bind,
    Option.bind_eq_some] at h
  rcases h with ⟨base, hbase, red, hred, hout⟩
  exact ⟨base, red, hbase, hred, hout⟩

/-- The output of `reduce_base_form` is always one of the 8 canonical
forms. -/
theorem reduce_base_form_canonical :
    ∀ s out, reduce_base_form s = some out → out ∈ canonicalForms := by
  have main : ∀ n s, s.length = n → ∀ out,
      reduce_base_form s = some out → out ∈ canonicalForms := by
    intro n
    induction n using Nat.strong_induction_on with
    | _ n ih =>
      intro s hn out h
      rw [reduce_base_form_eq] at h
      by_cases h5 : s.length < 5
      · rw [if_pos h5] at h
        exact representative_mem_canonical _ _ h
      · rw [if_neg h5] at h
        cases hrep : representative (s.take 4) with
        | none => rw [hrep] at h; cases h
        | some rep =>
          rw [hrep] at h
          have hlt : (rep ++ s.drop 4).length < n := by
            have h3 := representative_length_le _ _ hrep
            simp only [List.length_append, List.length_drop]
            omega
          exact ih _ hlt _ rfl out h
  intro s out h
  exact main s.length s rfl out h

/-- `reduce` preserves the denoted group element. -/
theorem reduce_evalSeq (s out : List T) (h : reduce s = some out) :
    evalSeq out = evalSeq s := by
  rcases reduce_some_elim s out h with ⟨base, red, hbase, hred, hout⟩
  rw [mapLookup_evalSeq _ _ hout, reduce_base_form_evalSeq _ _ hred,
    rewrite_to_base_form_evalSeq _ _ hbase]

/-- Every value stored in the bijective map has length at most 3. -/
theorem mapLookup_length_le_three (k v : List T) (h : mapLookup k = some v) :
    v.length ≤ 3 := by
  unfold mapLookup at h
  rcases Option.map_eq_some'.mp h with ⟨p, hfind, hsnd⟩
  have hmem : p ∈ BIJECTIVE_BASE_RICH_MAP := List.mem_of_find?_eq_some hfind
  have hall : ∀ p ∈ BIJECTIVE_BASE_RICH_MAP, p.2.length ≤ 3 := by decide
  exact hsnd ▸ hall p hmem

/-! ## Claims -/

/-- C1: For every sequence `s` of named transformations and every image
`img`, applying the reduced sequence yields exactly the same image as
applying the original: `apply (reduce s) img = apply s img`, pixel-exact
(`reduce` always succeeds, and its output produces the identical image). -/
theorem reduce_apply_pixel_exact (s : List T) (img : Image) :
    ∃ out, reduce s = some out ∧ apply out img = apply s img := by
  obtain ⟨out, hout, -⟩ := reduce_total_aux s
  refine ⟨out, hout, ?_⟩
  rw [apply_eq_act, apply_eq_act, reduce_evalSeq s out hout]

/-- C2: For every well-formed input sequence of named transformations, of
any length, `reduce` succeeds and its result has length at most 3. -/
theorem reduce_length_le_three (s : List T) :
    ∃ out, reduce s = some out ∧ out.length ≤ 3 := by
  obtain ⟨out, hout, red, hcan, hml⟩ := reduce_total_aux s
  exact ⟨out, hout, mapLookup_length_le_three red out hml⟩

/-- C3: `reduce` is idempotent: reducing the result of `reduce`
returns it unchanged (`reduce (reduce s) = reduce s`, in `Option` form). -/
theorem reduce_idempotent (s : List T) :
    (reduce s).bind reduce = reduce s := by
  obtain ⟨out, hout, red, hcan, hml⟩ := reduce_total_aux s
  rw [hout]
  have hfix : ∀ c ∈ canonicalForms,
      reduce ((mapLookup c).getD []) = some ((mapLookup c).getD []) := by
    decide
  have hred := hfix red hcan
  rw [hml] at hred
  simp only [Option.getD_some] at hred
  simp [hred]

/-- C4: `reduce` is total for well-formed input: for every sequence of the
5 named transformations it returns a result and never fails. -/
theorem reduce_total (s : List T) : ∃ out, reduce s = some out := by
  obtain ⟨out, hout, -⟩ := reduce_total_aux s
  exact ⟨out, hout⟩

/-- C5 counterexample: the contract operation `rewrite_to_rich_form`
succeeds on the sequence `[ROTATE_180]`, which is not one of the 8 canonical
generator forms, so it does not fail on every non-canonical input. -/
theorem rich_form_succeeds_on_non_canonical :
    rewrite_to_rich_form [T.ROTATE_180] =
        some [T.ROTATE_RIGHT, T.ROTATE_RIGHT] ∧
      [T.ROTATE_180] ∉ canonicalForms := by
  exact ⟨rfl, by decide⟩

/-- C5 (amended): `rewrite_to_rich_form` succeeds exactly on the 11 keys of
`BIJECTIVE_BASE_RICH_MAP` — the 8 canonical generator forms (including the
empty sequence) plus the three rich singletons `[ROTATE_180]`,
`[ROTATE_LEFT]` and `[FLIP_LEFT_RIGHT]`; on every other sequence it fails. -/
theorem rich_form_isSome_iff_mem_keys (s : List T) :
    (rewrite_to_rich_form s).isSome = true ↔
      s ∈ BIJECTIVE_BASE_RICH_MAP.map Prod.fst := by
  constructor
  · intro h
    rw [rewrite_to_rich_form, mapLookup] at h
    rcases Option.isSome_iff_exists.mp h with ⟨v, hv⟩
    rcases Option.map_eq_some'.mp hv with ⟨p, hfind, -⟩
    have hmem := List.mem_of_find?_eq_some hfind
    have hkey : p.1 = s := by simpa using List.find?_some hfind
    exact hkey ▸ List.mem_map_of_mem _ hmem
  · intro h
    rcases List.mem_map.mp h with ⟨p, hp, hkey⟩
    rw [rewrite_to_rich_form, mapLookup]
    cases hfind : BIJECTIVE_BASE_RICH_MAP.find? (fun q => decide (q.1 = s)) with
    | none =>
        exfalso
        have := List.find?_eq_none.mp hfind p hp
        simp [hkey] at this
    | some q => simp

/-- C6 counterexample: the equivalence-class table lookup `representative`
given the length-5 sequence `[r, r, r, r, r]` silently returns `none` (the
Python function returns `None` — it contains no raise at all), rather than
failing with a precondition-violation error. -/
theorem representative_silent_none_on_long :
    representative [r, r, r, r, r] = none := by decide

/-- C6 (amended): an equivalence-class table lookup on a sequence outside
the length-at-most-4 domain silently returns no representative (`None`);
no precondition-violation error is raised. -/
theorem representative_none_of_long (s : List T) (h : 4 < s.length) :
    representative s = none := by
  rw [representative]
  have hfind : ALL_EQ.find? (fun EQ => decide (s ∈ EQ)) = none := by
    rw [List.find?_eq_none]
    intro EQ hEQ
    have hlen : ∀ EQ ∈ ALL_EQ, ∀ q ∈ EQ, q.length ≤ 4 := by decide
    simp only [decide_eq_true_eq]
    intro hs
    have := hlen EQ hEQ s hs
    omega
  rw [hfind]
  rfl

theorem representative_none_of_long_witness :
    4 < ([f, f, f, f, f] : List T).length ∧
      representative [f, f, f, f, f] = none :=
  ⟨by decide, representative_none_of_long [f, f, f, f, f] (by decide)⟩

/-- C7: `reduce_base_form` terminates on every input length: whenever the
sequence has length at least 5 and the window lookup succeeds, the
representative of the first 4 elements has length at most 3, so replacing
them by it strictly shrinks the sequence. -/
theorem reduce_base_step_shrinks (s rep : List T) (h5 : 5 ≤ s.length)
    (hrep : representative (s.take 4) = some rep) :
    rep.length ≤ 3 ∧ (rep ++ s.drop 4).length < s.length := by
  have h3 := representative_length_le _ _ hrep
  refine ⟨h3, ?_⟩
  simp only [List.length_append, List.length_drop]
  omega

theorem reduce_base_step_shrinks_witness :
    5 ≤ ([f, r, f, r, f] : List T).length ∧
      representative (([f, r, f, r, f] : List T).take 4) = some [] ∧
      (([] : List T).length ≤ 3 ∧
        (([] : List T) ++ ([f, r, f, r, f] : List T).drop 4).length <
          ([f, r, f, r, f] : List T).length) :=
  ⟨by decide, by decide,
    reduce_base_step_shrinks [f, r, f, r, f] [] (by decide) (by decide)⟩

/-- C8: bijection round-trip: for every named transformation `t`,
contracting the generator expansion of `t` yields exactly the one-element
sequence `[t]`. -/
theorem contract_expand_roundtrip :
    ∀ t : T, (rewrite_to_base_form [t]).bind rewrite_to_rich_form =
      some [t] := by
  decide

/-- C9: for every sequence of named transformations, `rewrite_to_base_form`
returns a sequence containing only the two generators `f` and `r`, and
`reduce_base_form` succeeds on it — every windowed table lookup finds a
matching class, so the silent no-match branch of `representative` is
unreachable on inputs coming from `reduce`. -/
theorem base_form_only_generators (s b : List T)
    (h : rewrite_to_base_form s = some b) :
    isBase b = true ∧ (reduce_base_form b).isSome = true := by
  obtain ⟨b', hb', hbase⟩ := rewrite_to_base_form_total s
  have hbb : b = b' := Option.some.inj (h.symm.trans hb')
  subst hbb
  refine ⟨hbase, ?_⟩
  obtain ⟨out, hout, -⟩ := reduce_base_form_total b hbase
  simp [hout]

theorem base_form_only_generators_witness :
    rewrite_to_base_form [T.ROTATE_LEFT, T.FLIP_LEFT_RIGHT] =
        some [r, r, r, f, r, r] ∧
      (isBase [r, r, r, f, r, r] = true ∧
        (reduce_base_form [r, r, r, f, r, r]).isSome = true) :=
  ⟨by decide,
    base_form_only_generators [T.ROTATE_LEFT, T.FLIP_LEFT_RIGHT]
      [r, r, r, f, r, r] (by decide)⟩

/-- C10: for every well-formed input sequence of named transformations,
`reduce` succeeds and its result has length at most 2 — strictly stronger
than the specified bound of 3 — because every rich counterpart stored for a
canonical base form in the bijective map has at most 2 elements. -/
theorem reduce_length_le_two (s : List T) :
    ∃ out, reduce s = some out ∧ out.length ≤ 2 := by
  obtain ⟨out, hout, red, hcan, hml⟩ := reduce_total_aux s
  have hall : ∀ c ∈ canonicalForms,
      ((mapLookup c).getD []).length ≤ 2 := by decide
  have := hall red hcan
  rw [hml] at this
  simp only [Option.getD_some] at this
  exact ⟨out, hout, this⟩

end Frfr
